import Mathlib

/-!
Shallow embedding of an nginx-style configuration parser
(`src/nginx_parser.cpp`): a tokenizer over raw characters, a recursive
brace grouper over the token sequence, and a block builder interpreting
the grouped sequence as a directive tree.  Cursors (C++ iterators) are
modelled as the remaining suffix of the input list; every function
returns its result together with the suffix the iterator points at.
-/

namespace NginxParser

/-- Tokens of the configuration language, mirroring the `token::Token`
class hierarchy of the source: `Semicolon`, `OpeningBrace`,
`ClosingBrace`, `String`, and `Group` (the grouper's output node, itself
a subclass of `Token` in the source). -/
inductive Token : Type where
  | semicolon : Token
  | openingBrace : Token
  | closingBrace : Token
  | str : String → Token
  | group : List Token → Token
deriving Repr

/-- Parse failures, one constructor per throw site of the source.
`unmatchedOpeningBrace` is the `ParsingError("No matching closing curly
brace")` of `parseGroups`; `expectedDirectiveName` is the `std::bad_cast`
raised by `dynamic_cast<String &>(**input)` in `parse_block` when the
node at a directive-name position is not a `String`;
`unterminatedDirective` is `ParsingError("parse_block: directive:
unexpected end of input")` from the argument loop; `unexpectedEndOfInput`
is `ParsingError("unexpected end of input")` (unreachable in practice);
`expectedTerminatorOrBlock` is `ParsingError("parse_block: directive:
expected ; or \x7b")`. -/
inductive Err : Type where
  | unmatchedOpeningBrace : Err
  | expectedDirectiveName : Err
  | unterminatedDirective : Err
  | unexpectedEndOfInput : Err
  | expectedTerminatorOrBlock : Err
deriving Repr, DecidableEq

/-- A directive of the configuration: a name, an argument list, and an
optional nested block (`config::Directive`; the `config` field is a
possibly-null `Block *` in the source, an `Option` here). -/
inductive Directive : Type where
  | mk : String → List String → Option (List Directive) → Directive
deriving Repr

/-- A block is an ordered sequence of directives (`config::Block`). -/
abbrev Block := List Directive

/-- Name of a directive. -/
def Directive.name : Directive → String
  | .mk n _ _ => n

/-- Arguments of a directive. -/
def Directive.args : Directive → List String
  | .mk _ a _ => a

/-- Optional nested block of a directive (null pointer = `none`). -/
def Directive.config : Directive → Option Block
  | .mk _ _ c => c

/-- Skip a line comment: advance until the current character is a
newline (left unconsumed) or the input ends (`token::skipComment`). -/
def skipComment : List Char → List Char
  | [] => []
  | c :: cs => if c = '\n' then c :: cs else skipComment cs

/-- Length bound used for termination of `skipWhitespace`. -/
theorem skipComment_length_le (l : List Char) :
    (skipComment l).length ≤ l.length := by
  induction l with
  | nil => simp [skipComment]
  | cons c cs ih =>
    by_cases h : c = '\n' <;> simp [skipComment, h]
    exact Nat.le_succ_of_le ih

/-- Skip whitespace (space, tab, newline) and `#` line comments,
stopping at the first other character (`token::skipWhitespace`).  After
a comment the source's loop increment steps past the newline
`skipComment` stopped at; `.tail` models that increment (when the
comment ran to the end of input the source returns immediately, and
continuing on the empty tail returns the same empty suffix). -/
def skipWhitespace : List Char → List Char
  | [] => []
  | c :: cs =>
    if c = ' ' ∨ c = '\t' ∨ c = '\n' then skipWhitespace cs
    else if c = '#' then skipWhitespace (skipComment cs).tail
    else c :: cs
termination_by l => l.length
decreasing_by
  · simp
  · have hle := skipComment_length_le cs
    simp
    omega

/-- Accumulate a string literal: take characters until whitespace, `#`,
`;`, `\x7b`, `\x7d` or end of input (the `switch` of `token::parseWord`'s
inner loop). -/
def takeString : List Char → List Char × List Char
  | [] => ([], [])
  | c :: cs =>
    if c = ' ' ∨ c = '\t' ∨ c = '\n' ∨ c = '#' ∨ c = ';' ∨ c = '{' ∨ c = '}' then
      ([], c :: cs)
    else
      let (s, rest) := takeString cs
      (c :: s, rest)

/-- Read one token at the cursor: `;`, `\x7b`, `\x7d`, or a string
literal; at end of input return no token (null in the source)
(`token::parseWord`). -/
def parseWord : List Char → Option Token × List Char
  | [] => (none, [])
  | c :: cs =>
    if c = ';' then (some .semicolon, cs)
    else if c = '{' then (some .openingBrace, cs)
    else if c = '}' then (some .closingBrace, cs)
    else
      let (s, rest) := takeString (c :: cs)
      (some (.str ⟨s⟩), rest)

/-- The rest after `takeString` is no longer than the input. -/
theorem takeString_length_le (l : List Char) :
    (takeString l).2.length ≤ l.length := by
  induction l with
  | nil => simp [takeString]
  | cons c cs ih =>
    simp only [takeString]
    split
    · simp
    · simpa using Nat.le_succ_of_le ih

/-- The suffix `skipWhitespace` returns is no longer than its input. -/
theorem skipWhitespace_length_le (l : List Char) :
    (skipWhitespace l).length ≤ l.length := by
  induction l using skipWhitespace.induct with
  | case1 => simp [skipWhitespace]
  | case2 c cs h ih =>
    rw [skipWhitespace, if_pos h]
    exact Nat.le_succ_of_le ih
  | case3 cs h ih =>
    rw [skipWhitespace, if_neg h, if_pos rfl]
    have hle := skipComment_length_le cs
    have ht := List.length_tail (skipComment cs)
    simp only [List.length_cons]
    omega
  | case4 c cs h h2 =>
    rw [skipWhitespace, if_neg h, if_neg h2]

/-- When `skipWhitespace` stops at a character, that character is not a
space, tab, newline or `#` (the loop only breaks on other characters). -/
theorem skipWhitespace_head (l : List Char) :
    skipWhitespace l = [] ∨
      ∃ c cs, skipWhitespace l = c :: cs ∧
        ¬(c = ' ' ∨ c = '\t' ∨ c = '\n') ∧ c ≠ '#' := by
  induction l using skipWhitespace.induct with
  | case1 => rw [skipWhitespace]; left; rfl
  | case2 c cs h ih => rw [skipWhitespace, if_pos h]; exact ih
  | case3 cs h ih => rw [skipWhitespace, if_neg h, if_pos rfl]; exact ih
  | case4 c cs h h2 =>
    rw [skipWhitespace, if_neg h, if_neg h2]
    right
    exact ⟨c, cs, rfl, h, h2⟩

/-- A word read at a character that is not whitespace and not `#`
consumes at least one character. -/
theorem parseWord_length_lt (c : Char) (cs : List Char) (t : Token)
    (rest : List Char)
    (hc : ¬(c = ' ' ∨ c = '\t' ∨ c = '\n')) (hc2 : c ≠ '#')
    (h : parseWord (c :: cs) = (some t, rest)) :
    rest.length < (c :: cs).length := by
  by_cases hs : c = ';'
  · rw [parseWord, if_pos hs] at h
    simp at h
    simp [← h.2]
  · by_cases ho : c = '{'
    · rw [parseWord, if_neg hs, if_pos ho] at h
      simp at h
      simp [← h.2]
    · by_cases hb : c = '}'
      · rw [parseWord, if_neg hs, if_neg ho, if_pos hb] at h
        simp at h
        simp [← h.2]
      · rw [parseWord, if_neg hs, if_neg ho, if_neg hb] at h
        have hcond : ¬(c = ' ' ∨ c = '\t' ∨ c = '\n' ∨ c = '#' ∨
            c = ';' ∨ c = '{' ∨ c = '}') := by
          push_neg at hc ⊢
          exact ⟨hc.1, hc.2.1, hc.2.2, hc2, hs, ho, hb⟩
        rw [takeString, if_neg hcond] at h
        simp at h
        have hle := takeString_length_le cs
        rw [← h.2]
        simpa using Nat.lt_succ_of_le hle

/-- Tokenize: repeatedly skip whitespace/comments and read one word,
collecting the tokens, until the input is exhausted (`token::parse`).
When `parseWord` returns no token the cursor is at the end and the
source's loop exits. -/
def parse : List Char → List Token
  | [] => []
  | c :: cs =>
    match h : parseWord (skipWhitespace (c :: cs)) with
    | (none, _) => []
    | (some t, rest) => t :: parse rest
termination_by l => l.length
decreasing_by
  rcases skipWhitespace_head (c :: cs) with hnil | ⟨c', cs', heq, hw, hh⟩
  · rw [hnil] at h
    simp [parseWord] at h
  · rw [heq] at h
    have h1 := parseWord_length_lt c' cs' t rest hw hh h
    have h2 := skipWhitespace_length_le (c :: cs)
    rw [heq] at h2
    simp at h1 h2 ⊢
    omega

/-- Unfolding equation of `parse` on empty input. -/
theorem parse_nil : parse [] = [] := by
  rw [parse]

/-- Unfolding equation of `parse` on non-empty input, stated with a
plain match so that it can rewrite. -/
theorem parse_cons (c : Char) (cs : List Char) :
    parse (c :: cs) =
      match parseWord (skipWhitespace (c :: cs)) with
      | (none, _) => []
      | (some t, rest) => t :: parse rest := by
  rw [parse]
  split <;> rename_i heq <;> simp [heq]

/-- Recursive brace grouper (`token::parseGroups`), with the suffix it
returns bundled with the length bound Lean needs for termination.  The
loop stops (without consuming) at a `ClosingBrace`; at an `OpeningBrace`
it recurses just past the brace, and if the recursive call stopped
because the tokens ran out (`rest = []`) it throws `ParsingError("No
matching closing curly brace")`; otherwise the loop increment steps past
the consumed `ClosingBrace` and the loop continues.  Any other token is
appended to the output as-is. -/
def parseGroupsAux : (input : List Token) →
    Except Err (List Token × { rest : List Token // rest.length ≤ input.length })
  | [] => .ok ([], ⟨[], Nat.le_refl _⟩)
  | .closingBrace :: ts => .ok ([], ⟨.closingBrace :: ts, Nat.le_refl _⟩)
  | .openingBrace :: ts =>
    match parseGroupsAux ts with
    | .error e => .error e
    | .ok (_, ⟨[], _⟩) => .error .unmatchedOpeningBrace
    | .ok (content, ⟨_ :: rest1, h1⟩) =>
      match parseGroupsAux rest1 with
      | .error e => .error e
      | .ok (content2, ⟨rest2, h2⟩) =>
        .ok (.group content :: content2,
          ⟨rest2, by simp only [List.length_cons] at h1; simp; omega⟩)
  | t :: ts =>
    match parseGroupsAux ts with
    | .error e => .error e
    | .ok (content2, ⟨rest2, h2⟩) =>
      .ok (t :: content2, ⟨rest2, Nat.le_succ_of_le h2⟩)
termination_by input => input.length
decreasing_by
  · simp
  · simp only [List.length_cons] at h1
    simp
    omega
  · simp

/-- The grouper as the source exposes it: the grouped content and the
suffix the iterator was left at (`token::ParseGroups`). -/
def parseGroups (input : List Token) : Except Err (List Token × List Token) :=
  match parseGroupsAux input with
  | .error e => .error e
  | .ok (content, rest) => .ok (content, rest.val)

/-- Argument loop of `config::parse_block` (lines 252–258): consume
`String` tokens into the argument list; stop (without consuming) at the
first non-`String` node; if the input ends while still inside the loop,
throw `ParsingError("parse_block: directive: unexpected end of
input")`. -/
def parseArgs : List Token → Except Err (List String × List Token)
  | [] => .error .unterminatedDirective
  | .str s :: ts =>
    match parseArgs ts with
    | .error e => .error e
    | .ok (args, rest) => .ok (s :: args, rest)
  | t :: ts => .ok ([], t :: ts)

/-- The suffix `parseArgs` stops at weighs no more than its input (it is
a suffix of it). -/
theorem parseArgs_sizeOf (l : List Token) (args : List String)
    (rest : List Token) (h : parseArgs l = .ok (args, rest)) :
    sizeOf rest ≤ sizeOf l := by
  induction l generalizing args rest with
  | nil => simp [parseArgs] at h
  | cons t ts ih =>
    cases t with
    | str s =>
      rw [parseArgs] at h
      cases hh : parseArgs ts with
      | error e => rw [hh] at h; simp at h
      | ok p =>
        rw [hh] at h
        simp at h
        have := ih p.1 p.2 (by rw [hh])
        rw [← h.2]
        simp
        omega
    | semicolon =>
      simp [parseArgs] at h
      obtain ⟨-, h2⟩ := h
      subst h2
      exact Nat.le_refl _
    | openingBrace =>
      simp [parseArgs] at h
      obtain ⟨-, h2⟩ := h
      subst h2
      exact Nat.le_refl _
    | closingBrace =>
      simp [parseArgs] at h
      obtain ⟨-, h2⟩ := h
      subst h2
      exact Nat.le_refl _
    | group g =>
      simp [parseArgs] at h
      obtain ⟨-, h2⟩ := h
      subst h2
      exact Nat.le_refl _

/-- Block builder (`config::parse_block`).  At the end of the node
sequence the block is complete.  Otherwise the node at the cursor is
downcast to a `String` for the directive name — `std::bad_cast`
(`expectedDirectiveName`) when it is any other node.  After the argument
loop the node at the cursor must be a `Semicolon` (directive without
body) or a `Group` (its content parsed recursively as the body);
anything else throws `ParsingError("parse_block: directive: expected ;
or \x7b")`.  The `rest = []` branch mirrors the source's dead check
`ParsingError("unexpected end of input")`: the argument loop has already
thrown when the input ends. -/
def parse_block : List Token → Except Err Block
  | [] => .ok []
  | .str name :: ts =>
    match h : parseArgs ts with
    | .error e => .error e
    | .ok (_, []) => .error .unexpectedEndOfInput
    | .ok (args, .semicolon :: rest) =>
      match parse_block rest with
      | .error e => .error e
      | .ok b => .ok (.mk name args none :: b)
    | .ok (args, .group inner :: rest) =>
      match parse_block inner with
      | .error e => .error e
      | .ok body =>
        match parse_block rest with
        | .error e => .error e
        | .ok b => .ok (.mk name args (some body) :: b)
    | .ok (_, _ :: _) => .error .expectedTerminatorOrBlock
  | _ :: _ => .error .expectedDirectiveName
termination_by l => sizeOf l
decreasing_by
  · have hs := parseArgs_sizeOf ts _ _ h
    simp at hs ⊢
    omega
  · have hs := parseArgs_sizeOf ts _ _ h
    simp at hs ⊢
    omega
  · have hs := parseArgs_sizeOf ts _ _ h
    simp at hs ⊢
    omega

/-- Unfolding equation of `parse_block` on empty input. -/
theorem parse_block_nil : parse_block [] = .ok [] := by
  rw [parse_block]

/-- Unfolding equation of `parse_block` at a directive name, stated
with a plain match so that it can rewrite. -/
theorem parse_block_cons (name : String) (ts : List Token) :
    parse_block (.str name :: ts) =
      match parseArgs ts with
      | .error e => .error e
      | .ok (_, []) => .error .unexpectedEndOfInput
      | .ok (args, .semicolon :: rest) =>
        match parse_block rest with
        | .error e => .error e
        | .ok b => .ok (.mk name args none :: b)
      | .ok (args, .group inner :: rest) =>
        match parse_block inner with
        | .error e => .error e
        | .ok body =>
          match parse_block rest with
          | .error e => .error e
          | .ok b => .ok (.mk name args (some body) :: b)
      | .ok (_, _ :: _) => .error .expectedTerminatorOrBlock := by
  rw [parse_block]
  split <;> rename_i heq <;> simp [heq]

/-- The full pipeline as `main` runs it: tokenize the text, group the
token sequence, and build the block from the grouped content (the
grouper's `rest` is ignored by the source's caller). -/
def parseConfig (text : String) : Except Err Block :=
  match parseGroups (parse text.data) with
  | .error e => .error e
  | .ok (content, _) => parse_block content

/-- Number of `Semicolon` tokens at the top level of a node sequence
(terminators of body-less directives once grouped). -/
def countSemicolons : List Token → Nat
  | [] => 0
  | .semicolon :: ts => countSemicolons ts + 1
  | _ :: ts => countSemicolons ts

/-- Number of `Group` nodes at the top level of a node sequence (one
per top-level matched brace pair of the input). -/
def countGroups : List Token → Nat
  | [] => 0
  | .group _ :: ts => countGroups ts + 1
  | _ :: ts => countGroups ts

/-- No brace token at the top level of the sequence. -/
def noTopBraces : List Token → Bool
  | [] => true
  | .openingBrace :: _ => false
  | .closingBrace :: _ => false
  | _ :: ts => noTopBraces ts

/-- No `Group` node at the top level: the shape of the flat sequence
the tokenizer produces. -/
def groupFree : List Token → Bool
  | [] => true
  | .group _ :: _ => false
  | _ :: ts => groupFree ts

/-- No brace token anywhere in the tree, at any depth inside `Group`
nodes. -/
def braceFree : List Token → Bool
  | [] => true
  | .openingBrace :: _ => false
  | .closingBrace :: _ => false
  | .group c :: ts => braceFree c && braceFree ts
  | _ :: ts => braceFree ts

/-- Flatten a grouped node sequence back into a flat token sequence,
restoring the `\x7b … \x7d` pair around each `Group`'s content. -/
def flattenList : List Token → List Token
  | [] => []
  | .group c :: ts => .openingBrace :: (flattenList c ++ .closingBrace :: flattenList ts)
  | t :: ts => t :: flattenList ts

/-- The directive grammar over grouped nodes: a well-formed block is a
sequence of directives, each a `String` name, zero or more `String`
arguments, and either a `Semicolon` terminator or a `Group` whose
content is itself well formed. -/
inductive WellFormedBlock : List Token → Prop where
  | nil : WellFormedBlock []
  | semi (name : String) (args : List String) (rest : List Token) :
      WellFormedBlock rest →
      WellFormedBlock (.str name :: (args.map Token.str ++ .semicolon :: rest))
  | block (name : String) (args : List String) (inner rest : List Token) :
      WellFormedBlock inner → WellFormedBlock rest →
      WellFormedBlock (.str name :: (args.map Token.str ++ .group inner :: rest))

/-- Render a block back into the grouped node sequence it was built
from: each directive contributes its name, its arguments, and then a
`Semicolon` when it has no body or a `Group` of its rendered body when
it has one. -/
def flattenBlock : Block → List Token
  | [] => []
  | .mk name args none :: ds =>
    .str name :: (args.map Token.str ++ .semicolon :: flattenBlock ds)
  | .mk name args (some inner) :: ds =>
    .str name :: (args.map Token.str ++ .group (flattenBlock inner) :: flattenBlock ds)

/-- An `ok` result of `parseGroups` comes from an `ok` result of
`parseGroupsAux` with the same content and suffix. -/
theorem parseGroupsAux_of_ok (input c r : List Token)
    (h : parseGroups input = .ok (c, r)) :
    ∃ hle : r.length ≤ input.length, parseGroupsAux input = .ok (c, ⟨r, hle⟩) := by
  rw [parseGroups] at h
  cases hh : parseGroupsAux input with
  | error e => rw [hh] at h; simp at h
  | ok p =>
    obtain ⟨c2, r2, hle2⟩ := p
    rw [hh] at h
    simp at h
    obtain ⟨h1, h2⟩ := h
    subst h1
    subst h2
    exact ⟨hle2, by simp [hh]⟩

/-- When the grouper returns without error, its rest cursor is at the
end of the sequence or at a `ClosingBrace`: the loop only stops there. -/
theorem parseGroups_rest (input : List Token) :
    ∀ c r, parseGroups input = .ok (c, r) →
      r = [] ∨ ∃ ts, r = .closingBrace :: ts := by
  induction input using parseGroupsAux.induct with
  | case1 =>
    intro c r h
    simp [parseGroups, parseGroupsAux] at h
    obtain ⟨-, h2⟩ := h
    subst h2
    left
    rfl
  | case2 ts =>
    intro c r h
    simp [parseGroups, parseGroupsAux] at h
    obtain ⟨-, h2⟩ := h
    subst h2
    right
    exact ⟨ts, rfl⟩
  | case3 ts e heq ih =>
    intro c r h
    simp [parseGroups, parseGroupsAux, heq] at h
  | case4 ts fst property heq ih =>
    intro c r h
    simp [parseGroups, parseGroupsAux, heq] at h
  | case5 ts content head rest1 h1 heq1 e heq2 ih1 ih2 =>
    intro c r h
    simp [parseGroups, parseGroupsAux, heq1, heq2] at h
  | case6 ts content head rest1 h1 heq1 content2 rest2 h2 heq2 ih1 ih2 =>
    intro c r h
    simp [parseGroups, parseGroupsAux, heq1, heq2] at h
    obtain ⟨-, h2r⟩ := h
    subst h2r
    exact ih2 content2 rest2 (by rw [parseGroups, heq2])
  | case7 t ts hnc hno e heq ih =>
    intro c r h
    cases t with
    | semicolon => simp [parseGroups, parseGroupsAux, heq] at h
    | str s => simp [parseGroups, parseGroupsAux, heq] at h
    | group g => simp [parseGroups, parseGroupsAux, heq] at h
    | openingBrace => exact absurd rfl hno
    | closingBrace => exact absurd rfl hnc
  | case8 t ts hnc hno content2 rest2 h2 heq ih =>
    intro c r h
    have hts : parseGroups ts = .ok (content2, rest2) := by rw [parseGroups, heq]
    cases t with
    | semicolon =>
      simp [parseGroups, parseGroupsAux, heq] at h
      obtain ⟨-, h2r⟩ := h
      subst h2r
      exact ih content2 rest2 hts
    | str s =>
      simp [parseGroups, parseGroupsAux, heq] at h
      obtain ⟨-, h2r⟩ := h
      subst h2r
      exact ih content2 rest2 hts
    | group g =>
      simp [parseGroups, parseGroupsAux, heq] at h
      obtain ⟨-, h2r⟩ := h
      subst h2r
      exact ih content2 rest2 hts
    | openingBrace => exact absurd rfl hno
    | closingBrace => exact absurd rfl hnc

/-- Appending a non-brace token in front of the grouper's input prepends
it to the grouped content and leaves the rest cursor unchanged. -/
theorem parseGroups_cons_leaf (t : Token) (ts : List Token)
    (hno : t ≠ .openingBrace) (hnc : t ≠ .closingBrace) :
    parseGroups (t :: ts) =
      match parseGroups ts with
      | .error e => .error e
      | .ok (c, r) => .ok (t :: c, r) := by
  cases hh : parseGroupsAux ts with
  | error e =>
    have hts : parseGroups ts = Except.error e := by rw [parseGroups, hh]
    cases t with
    | semicolon => simp [parseGroups, parseGroupsAux, hh, hts]
    | str s => simp [parseGroups, parseGroupsAux, hh, hts]
    | group g => simp [parseGroups, parseGroupsAux, hh, hts]
    | openingBrace => exact absurd rfl hno
    | closingBrace => exact absurd rfl hnc
  | ok p =>
    obtain ⟨c2, r2, hle2⟩ := p
    have hts : parseGroups ts = .ok (c2, r2) := by rw [parseGroups, hh]
    cases t with
    | semicolon => simp [parseGroups, parseGroupsAux, hh, hts]
    | str s => simp [parseGroups, parseGroupsAux, hh, hts]
    | group g => simp [parseGroups, parseGroupsAux, hh, hts]
    | openingBrace => exact absurd rfl hno
    | closingBrace => exact absurd rfl hnc

/-- A `ClosingBrace` with no matching open before it stops the grouper
without error: everything before it (here brace-free) becomes the
content and the rest cursor points at the stray `ClosingBrace`. -/
theorem parseGroups_stray_closing (pre rest : List Token)
    (hpre : noTopBraces pre = true) :
    parseGroups (pre ++ .closingBrace :: rest) = .ok (pre, .closingBrace :: rest) := by
  induction pre with
  | nil => simp [parseGroups, parseGroupsAux]
  | cons t pre ih =>
    cases t with
    | openingBrace => simp [noTopBraces] at hpre
    | closingBrace => simp [noTopBraces] at hpre
    | semicolon =>
      have hpre2 : noTopBraces pre = true := by simpa [noTopBraces] using hpre
      rw [List.cons_append,
        parseGroups_cons_leaf _ _ (by simp) (by simp), ih hpre2]
    | str s =>
      have hpre2 : noTopBraces pre = true := by simpa [noTopBraces] using hpre
      rw [List.cons_append,
        parseGroups_cons_leaf _ _ (by simp) (by simp), ih hpre2]
    | group g =>
      have hpre2 : noTopBraces pre = true := by simpa [noTopBraces] using hpre
      rw [List.cons_append,
        parseGroups_cons_leaf _ _ (by simp) (by simp), ih hpre2]

/-- An `OpeningBrace` whose recursive grouping runs to the end of the
token sequence (rest cursor `[]`) makes the grouper throw
`ParsingError("No matching closing curly brace")`, through any
brace-free prefix. -/
theorem parseGroups_unmatched_open (pre ts c : List Token)
    (hpre : noTopBraces pre = true)
    (h : parseGroups ts = .ok (c, [])) :
    parseGroups (pre ++ .openingBrace :: ts) = .error .unmatchedOpeningBrace := by
  induction pre with
  | nil =>
    obtain ⟨hle, ha⟩ := parseGroupsAux_of_ok ts c [] h
    simp [parseGroups, parseGroupsAux, ha]
  | cons t pre ih =>
    cases t with
    | openingBrace => simp [noTopBraces] at hpre
    | closingBrace => simp [noTopBraces] at hpre
    | semicolon =>
      have hpre2 : noTopBraces pre = true := by simpa [noTopBraces] using hpre
      rw [List.cons_append,
        parseGroups_cons_leaf _ _ (by simp) (by simp), ih hpre2]
    | str s =>
      have hpre2 : noTopBraces pre = true := by simpa [noTopBraces] using hpre
      rw [List.cons_append,
        parseGroups_cons_leaf _ _ (by simp) (by simp), ih hpre2]
    | group g =>
      have hpre2 : noTopBraces pre = true := by simpa [noTopBraces] using hpre
      rw [List.cons_append,
        parseGroups_cons_leaf _ _ (by simp) (by simp), ih hpre2]

/-- No top-level `Group` in an append means none in either part. -/
theorem groupFree_append (a b : List Token) :
    groupFree (a ++ b) = (groupFree a && groupFree b) := by
  induction a with
  | nil => simp [groupFree]
  | cons t ts ih =>
    cases t with
    | semicolon => simp [groupFree, ih]
    | openingBrace => simp [groupFree, ih]
    | closingBrace => simp [groupFree, ih]
    | str s => simp [groupFree, ih]
    | group g => simp [groupFree]

/-- On a flat (group-free) token sequence, a successful grouping yields
content with no brace token at any depth, and flattening the content
(restoring one brace pair per `Group`) followed by the rest cursor
reproduces the input: each `Group` stands for exactly one matched brace
pair whose braces were discarded. -/
theorem parseGroups_flatten (input : List Token) :
    ∀ c r, groupFree input = true → parseGroups input = .ok (c, r) →
      braceFree c = true ∧ flattenList c ++ r = input := by
  induction input using parseGroupsAux.induct with
  | case1 =>
    intro c r hg h
    simp [parseGroups, parseGroupsAux] at h
    obtain ⟨h1, h2⟩ := h
    subst h1
    subst h2
    exact ⟨by simp [braceFree], by simp [flattenList]⟩
  | case2 ts =>
    intro c r hg h
    simp [parseGroups, parseGroupsAux] at h
    obtain ⟨h1, h2⟩ := h
    subst h1
    subst h2
    exact ⟨by simp [braceFree], by simp [flattenList]⟩
  | case3 ts e heq ih =>
    intro c r hg h
    simp [parseGroups, parseGroupsAux, heq] at h
  | case4 ts fst property heq ih =>
    intro c r hg h
    simp [parseGroups, parseGroupsAux, heq] at h
  | case5 ts content head rest1 h1 heq1 e heq2 ih1 ih2 =>
    intro c r hg h
    simp [parseGroups, parseGroupsAux, heq1, heq2] at h
  | case6 ts content head rest1 h1 heq1 content2 rest2 h2 heq2 ih1 ih2 =>
    intro c r hg h
    simp [parseGroups, parseGroupsAux, heq1, heq2] at h
    obtain ⟨h1c, h2r⟩ := h
    subst h1c
    subst h2r
    have hgts : groupFree ts = true := by simpa [groupFree] using hg
    have hts : parseGroups ts = .ok (content, head :: rest1) := by
      rw [parseGroups, heq1]
    obtain ⟨hbf1, hfl1⟩ := ih1 content (head :: rest1) hgts hts
    have hhead : head = Token.closingBrace := by
      rcases parseGroups_rest ts content (head :: rest1) hts with hnil | ⟨ts2, hcons⟩
      · simp at hnil
      · injection hcons
    subst hhead
    have hgrest1 : groupFree rest1 = true := by
      have hx := hgts
      rw [← hfl1, groupFree_append] at hx
      simp at hx
      simpa [groupFree] using hx.2
    have hrest1 : parseGroups rest1 = .ok (content2, rest2) := by
      rw [parseGroups, heq2]
    obtain ⟨hbf2, hfl2⟩ := ih2 content2 rest2 hgrest1 hrest1
    constructor
    · simp [braceFree, hbf1, hbf2]
    · simp only [flattenList]
      rw [List.cons_append, List.append_assoc]
      rw [List.cons_append]
      rw [hfl2, hfl1]
  | case7 t ts hnc hno e heq ih =>
    intro c r hg h
    cases t with
    | semicolon => simp [parseGroups, parseGroupsAux, heq] at h
    | str s => simp [parseGroups, parseGroupsAux, heq] at h
    | group g => simp [parseGroups, parseGroupsAux, heq] at h
    | openingBrace => exact absurd rfl hno
    | closingBrace => exact absurd rfl hnc
  | case8 t ts hnc hno content2 rest2 h2 heq ih =>
    intro c r hg h
    have hts : parseGroups ts = .ok (content2, rest2) := by rw [parseGroups, heq]
    cases t with
    | semicolon =>
      simp [parseGroups, parseGroupsAux, heq] at h
      obtain ⟨h1c, h2r⟩ := h
      subst h1c
      subst h2r
      have hgts : groupFree ts = true := by simpa [groupFree] using hg
      obtain ⟨hbf, hfl⟩ := ih content2 rest2 hgts hts
      exact ⟨by simp [braceFree, hbf], by simp [flattenList, hfl]⟩
    | str s =>
      simp [parseGroups, parseGroupsAux, heq] at h
      obtain ⟨h1c, h2r⟩ := h
      subst h1c
      subst h2r
      have hgts : groupFree ts = true := by simpa [groupFree] using hg
      obtain ⟨hbf, hfl⟩ := ih content2 rest2 hgts hts
      exact ⟨by simp [braceFree, hbf], by simp [flattenList, hfl]⟩
    | group g => simp [groupFree] at hg
    | openingBrace => exact absurd rfl hno
    | closingBrace => exact absurd rfl hnc


/-- Invoked directly at a whitespace or comment character, `parseWord`
emits an empty string literal and leaves the cursor in place: the three
brace/terminator tests fail and the literal loop stops immediately at
the delimiter. -/
theorem parseWord_ws_empty (c : Char) (cs : List Char)
    (hc : c = ' ' ∨ c = '\t' ∨ c = '\n' ∨ c = '#') :
    parseWord (c :: cs) = (some (.str ""), c :: cs) := by
  rcases hc with h | h | h | h <;> subst h <;>
    simp +decide [parseWord, takeString]

/-- A string literal read at a character that is neither whitespace nor
`#` (the situation after `skipWhitespace`) is never empty: the first
character is accumulated before any delimiter can stop the loop. -/
theorem parseWord_str_ne_empty (c : Char) (cs : List Char) (s : String)
    (rest : List Char)
    (hc : ¬(c = ' ' ∨ c = '\t' ∨ c = '\n')) (hc2 : c ≠ '#')
    (h : parseWord (c :: cs) = (some (.str s), rest)) : s ≠ "" := by
  by_cases hs : c = ';'
  · rw [parseWord, if_pos hs] at h
    simp at h
  · by_cases ho : c = '{'
    · rw [parseWord, if_neg hs, if_pos ho] at h
      simp at h
    · by_cases hb : c = '}'
      · rw [parseWord, if_neg hs, if_neg ho, if_pos hb] at h
        simp at h
      · rw [parseWord, if_neg hs, if_neg ho, if_neg hb] at h
        have hcond : ¬(c = ' ' ∨ c = '\t' ∨ c = '\n' ∨ c = '#' ∨
            c = ';' ∨ c = '{' ∨ c = '}') := by
          push_neg at hc ⊢
          exact ⟨hc.1, hc.2.1, hc.2.2, hc2, hs, ho, hb⟩
        rw [takeString, if_neg hcond] at h
        simp at h
        intro hemp
        subst hemp
        have hdata := congrArg String.data h.1
        simp at hdata
      
/-- The tokenizer never emits an empty string literal: `skipWhitespace`
runs before every `parseWord`, so a literal always starts at a
non-delimiter character. -/
theorem parse_no_empty_literal (input : List Char) :
    ∀ s, Token.str s ∈ parse input → s ≠ "" := by
  induction input using parse.induct with
  | case1 =>
    intro s h
    rw [parse_nil] at h
    simp at h
  | case2 c cs snd heq =>
    intro s h
    rw [parse_cons, heq] at h
    simp at h
  | case3 c cs t rest heq ih =>
    intro s h
    rw [parse_cons, heq] at h
    simp at h
    rcases h with h | h
    · subst h
      rcases skipWhitespace_head (c :: cs) with hnil | ⟨c2, cs2, heq2, hw, hh⟩
      · rw [hnil] at heq
        simp [parseWord] at heq
      · rw [heq2] at heq
        exact parseWord_str_ne_empty c2 cs2 s rest hw hh heq
    · exact ih s h

/-- At a directive-name position, any node other than a string literal
makes `parse_block` fail: the `dynamic_cast<String &>` downcast throws. -/
theorem parse_block_expects_name (t : Token) (ts : List Token)
    (h : ∀ s, t ≠ .str s) :
    parse_block (t :: ts) = .error .expectedDirectiveName := by
  cases t with
  | str s => exact absurd rfl (h s)
  | semicolon =>
    rw [parse_block]
    exact h
  | openingBrace =>
    rw [parse_block]
    exact h
  | closingBrace =>
    rw [parse_block]
    exact h
  | group g =>
    rw [parse_block]
    exact h


/-- Top-level semicolon count distributes over append. -/
theorem countSemicolons_append (a b : List Token) :
    countSemicolons (a ++ b) = countSemicolons a + countSemicolons b := by
  induction a with
  | nil => simp [countSemicolons]
  | cons t ts ih =>
    cases t with
    | semicolon => simp [countSemicolons, ih]; omega
    | openingBrace => simp [countSemicolons, ih]
    | closingBrace => simp [countSemicolons, ih]
    | str s => simp [countSemicolons, ih]
    | group g => simp [countSemicolons, ih]

/-- Top-level group count distributes over append. -/
theorem countGroups_append (a b : List Token) :
    countGroups (a ++ b) = countGroups a + countGroups b := by
  induction a with
  | nil => simp [countGroups]
  | cons t ts ih =>
    cases t with
    | semicolon => simp [countGroups, ih]
    | openingBrace => simp [countGroups, ih]
    | closingBrace => simp [countGroups, ih]
    | str s => simp [countGroups, ih]
    | group g => simp [countGroups, ih]; omega

/-- String-literal nodes contribute no semicolons. -/
theorem countSemicolons_map_str (args : List String) :
    countSemicolons (args.map Token.str) = 0 := by
  induction args with
  | nil => simp [countSemicolons]
  | cons a as ih => simp [countSemicolons, ih]

/-- String-literal nodes contribute no groups. -/
theorem countGroups_map_str (args : List String) :
    countGroups (args.map Token.str) = 0 := by
  induction args with
  | nil => simp [countGroups]
  | cons a as ih => simp [countGroups, ih]

/-- The argument loop consumes exactly the leading string literals and
stops at the first non-string node. -/
theorem parseArgs_map_str (args : List String) (t : Token) (ts : List Token)
    (h : ∀ s, t ≠ .str s) :
    parseArgs (args.map Token.str ++ t :: ts) = .ok (args, t :: ts) := by
  induction args with
  | nil =>
    cases t with
    | str s => exact absurd rfl (h s)
    | semicolon => simp [parseArgs]
    | openingBrace => simp [parseArgs]
    | closingBrace => simp [parseArgs]
    | group g => simp [parseArgs]
  | cons a as ih => simp [parseArgs, ih]

/-- On a grammatically well-formed grouped sequence the block builder
succeeds, and produces one directive per top-level terminator or group. -/
theorem parse_block_wellFormed (ns : List Token) (h : WellFormedBlock ns) :
    ∃ b, parse_block ns = .ok b ∧
      b.length = countSemicolons ns + countGroups ns := by
  induction h with
  | nil => exact ⟨[], parse_block_nil, by simp [countSemicolons, countGroups]⟩
  | semi name args rest hrest ih =>
    obtain ⟨b, hb, hlen⟩ := ih
    refine ⟨.mk name args none :: b, ?_, ?_⟩
    · rw [parse_block_cons, parseArgs_map_str args .semicolon rest (by simp)]
      simp [hb]
    · simp [countSemicolons, countGroups, countSemicolons_append,
        countGroups_append, countSemicolons_map_str, countGroups_map_str, hlen]
      omega
  | block name args inner rest hinner hrest ih1 ih2 =>
    obtain ⟨bi, hbi, hleni⟩ := ih1
    obtain ⟨b, hb, hlen⟩ := ih2
    refine ⟨.mk name args (some bi) :: b, ?_, ?_⟩
    · rw [parse_block_cons, parseArgs_map_str args (.group inner) rest (by simp)]
      simp [hbi, hb]
    · simp [countSemicolons, countGroups, countSemicolons_append,
        countGroups_append, countSemicolons_map_str, countGroups_map_str, hlen]
      omega

/-- Inversion of the argument loop: the input is the consumed string
literals followed by the suffix it stopped at. -/
theorem parseArgs_decomp (l : List Token) :
    ∀ args rest, parseArgs l = .ok (args, rest) →
      l = args.map Token.str ++ rest := by
  induction l with
  | nil => intro args rest h; simp [parseArgs] at h
  | cons t ts ih =>
    intro args rest h
    cases t with
    | str s =>
      rw [parseArgs] at h
      cases hh : parseArgs ts with
      | error e => rw [hh] at h; simp at h
      | ok p =>
        obtain ⟨args2, rest2⟩ := p
        rw [hh] at h
        simp at h
        obtain ⟨h1, h2⟩ := h
        subst h1
        subst h2
        simp [ih args2 rest2 hh]
    | semicolon =>
      simp [parseArgs] at h
      obtain ⟨h1, h2⟩ := h
      subst h1
      subst h2
      simp
    | openingBrace =>
      simp [parseArgs] at h
      obtain ⟨h1, h2⟩ := h
      subst h1
      subst h2
      simp
    | closingBrace =>
      simp [parseArgs] at h
      obtain ⟨h1, h2⟩ := h
      subst h1
      subst h2
      simp
    | group g =>
      simp [parseArgs] at h
      obtain ⟨h1, h2⟩ := h
      subst h1
      subst h2
      simp

/-- Inversion of the block builder: a successfully parsed node sequence
is exactly the rendering of the block it returns, so each directive was
written with a semicolon terminator exactly when its body is absent and
with a nested group exactly when its body is present. -/
theorem parse_block_flatten (ns : List Token) :
    ∀ b, parse_block ns = .ok b → ns = flattenBlock b := by
  induction ns using parse_block.induct with
  | case1 =>
    intro b h
    rw [parse_block_nil] at h
    simp at h
    subst h
    simp [flattenBlock]
  | case2 s ts e heq =>
    intro b h
    rw [parse_block_cons, heq] at h
    simp at h
  | case3 s ts fst heq =>
    intro b h
    rw [parse_block_cons, heq] at h
    simp at h
  | case4 s ts args rest heq e heq2 ih =>
    intro b h
    rw [parse_block_cons, heq] at h
    simp only [] at h
    rw [heq2] at h
    simp at h
  | case5 s ts args rest heq b2 heq2 ih =>
    intro b h
    rw [parse_block_cons, heq] at h
    simp only [] at h
    rw [heq2] at h
    simp at h
    subst h
    rw [parseArgs_decomp ts args (.semicolon :: rest) heq]
    simp [flattenBlock, ih b2 heq2]
  | case6 s ts args inner rest heq e heq2 ih =>
    intro b h
    rw [parse_block_cons, heq] at h
    simp only [] at h
    rw [heq2] at h
    simp at h
  | case7 s ts args inner rest heq b2 heq2 e heq3 ih1 ih2 =>
    intro b h
    rw [parse_block_cons, heq] at h
    simp only [] at h
    rw [heq2] at h
    simp only [] at h
    rw [heq3] at h
    simp at h
  | case8 s ts args inner rest heq b2 heq2 b3 heq3 ih1 ih2 =>
    intro b h
    rw [parse_block_cons, heq] at h
    simp only [] at h
    rw [heq2] at h
    simp only [] at h
    rw [heq3] at h
    simp at h
    subst h
    rw [parseArgs_decomp ts args (.group inner :: rest) heq]
    simp [flattenBlock, ih1 b2 heq2, ih2 b3 heq3]
  | case9 s ts fst head tail hns hng heq =>
    intro b h
    rw [parse_block_cons, heq] at h
    cases head with
    | semicolon => exact absurd rfl hns
    | group g => exact absurd rfl (hng g)
    | openingBrace => simp at h
    | closingBrace => simp at h
    | str s2 => simp at h
  | case10 t ts hnstr =>
    intro b h
    cases t with
    | str s => exact absurd rfl (hnstr s)
    | semicolon => rw [parse_block_expects_name _ _ (by simp)] at h; simp at h
    | openingBrace => rw [parse_block_expects_name _ _ (by simp)] at h; simp at h
    | closingBrace => rw [parse_block_expects_name _ _ (by simp)] at h; simp at h
    | group g => rw [parse_block_expects_name _ _ (by simp)] at h; simp at h

/-- C1, counterexample: the claim says a token sequence with a stray
top-level `ClosingBrace` (here the one-token sequence `[ '\x7d' ]`) makes
the top-level grouper invocation fail with an UnmatchedClosingBrace
error and that a successful invocation always ends at end-of-sequence.
The source has no such error and no top-level check: on `[ '\x7d' ]` the
grouper returns successfully with empty content and the rest cursor
still pointing at the stray `ClosingBrace`, not at end-of-sequence. -/
theorem claim_C1_counterexample :
    parseGroups [Token.closingBrace] = .ok ([], [Token.closingBrace]) := by
  simp [parseGroups, parseGroupsAux]

/-- C1, amended: a `ClosingBrace` at the top level with no corresponding
`OpeningBrace` before it does not make the grouper fail; the loop stops
at it without consuming it, returning the tokens before it (here an
arbitrary brace-free prefix) as content and the rest cursor pointing at
the stray `ClosingBrace`, so a successful invocation's cursor is not
necessarily at end-of-sequence and no UnmatchedClosingBrace error
exists. -/
theorem claim_C1_amended (pre rest : List Token)
    (hpre : noTopBraces pre = true) :
    parseGroups (pre ++ .closingBrace :: rest) = .ok (pre, .closingBrace :: rest) :=
  parseGroups_stray_closing pre rest hpre

/-- Witness for C1 amended at the concrete prefix `[ "a" ]`. -/
theorem claim_C1_witness :
    noTopBraces [Token.str "a"] = true ∧
      parseGroups [Token.str "a", Token.closingBrace] =
        .ok ([Token.str "a"], [Token.closingBrace]) :=
  ⟨rfl, claim_C1_amended [Token.str "a"] [] rfl⟩

/-- C2: in the ExpectName state (a directive-name position), any node
that is not a string literal — a `Semicolon` leaf, a brace leaf, or a
`Group` — makes the block builder fail with the ExpectedDirectiveName
error (the `std::bad_cast` of the name downcast); in particular a bare
stray `;` is not silently skipped. -/
theorem claim_C2 (t : Token) (ts : List Token) (h : ∀ s, t ≠ .str s) :
    parse_block (t :: ts) = .error .expectedDirectiveName :=
  parse_block_expects_name t ts h

/-- Witness for C2 at a bare stray semicolon. -/
theorem claim_C2_witness :
    (∀ s, Token.semicolon ≠ Token.str s) ∧
      parse_block [Token.semicolon] = .error .expectedDirectiveName :=
  ⟨fun _ h => Token.noConfusion h,
    claim_C2 Token.semicolon [] (fun _ h => Token.noConfusion h)⟩

/-- C3: an `OpeningBrace` whose recursive grouping terminates because
the token sequence ended (the recursive call returns with its rest
cursor at end-of-sequence) rather than by consuming a matching
`ClosingBrace` makes the grouper fail with the UnmatchedOpeningBrace
error, wherever the brace stands after a brace-free prefix. -/
theorem claim_C3 (pre ts c : List Token) (hpre : noTopBraces pre = true)
    (h : parseGroups ts = .ok (c, [])) :
    parseGroups (pre ++ .openingBrace :: ts) = .error .unmatchedOpeningBrace :=
  parseGroups_unmatched_open pre ts c hpre h

/-- Witness for C3: a sequence with an extra trailing opening brace. -/
theorem claim_C3_witness :
    noTopBraces [Token.str "a"] = true ∧
      parseGroups ([] : List Token) = .ok ([], []) ∧
      parseGroups [Token.str "a", Token.openingBrace] =
        .error .unmatchedOpeningBrace := by
  refine ⟨rfl, by simp [parseGroups, parseGroupsAux], ?_⟩
  exact claim_C3 [Token.str "a"] [] [] rfl (by simp [parseGroups, parseGroupsAux])

/-- C4: on input text with balanced braces (grouping succeeds with the
cursor at end-of-sequence) and well-formed directives (the grouped
sequence satisfies the directive grammar), the full pipeline succeeds
and the resulting block has one directive per top-level terminator or
top-level group. -/
theorem claim_C4 (text : String) (g : List Token)
    (hg : parseGroups (parse text.data) = .ok (g, []))
    (hwf : WellFormedBlock g) :
    ∃ b, parseConfig text = .ok b ∧
      b.length = countSemicolons g + countGroups g := by
  obtain ⟨b, hb, hlen⟩ := parse_block_wellFormed g hwf
  refine ⟨b, ?_, hlen⟩
  rw [parseConfig, hg]
  exact hb

/-- Witness for C4 on the text `"a;b\x7b\x7d"`: one terminator and one
top-level group give two directives. -/
theorem claim_C4_witness :
    parseGroups (parse "a;b{}".data) =
        .ok ([Token.str "a", Token.semicolon, Token.str "b", Token.group []], []) ∧
      ∃ b, parseConfig "a;b{}" = .ok b ∧
        b.length =
          countSemicolons [Token.str "a", Token.semicolon, Token.str "b", Token.group []] +
            countGroups [Token.str "a", Token.semicolon, Token.str "b", Token.group []] := by
  have hd : "a;b{}".data = ['a', ';', 'b', '{', '}'] := rfl
  have hp : parse ['a', ';', 'b', '{', '}'] =
      [Token.str "a", Token.semicolon, Token.str "b",
        Token.openingBrace, Token.closingBrace] := by
    simp [parse_nil, parse_cons, skipWhitespace, parseWord, takeString]
  have hg : parseGroups (parse "a;b{}".data) =
      .ok ([Token.str "a", Token.semicolon, Token.str "b", Token.group []], []) := by
    rw [hd, hp]
    simp [parseGroups, parseGroupsAux]
  exact ⟨hg, claim_C4 "a;b{}" _ hg
    (.semi "a" [] _ (.block "b" [] [] [] .nil .nil))⟩

/-- C5: on any flat token sequence (no pre-existing `Group`, the shape
the tokenizer produces) on which the grouper succeeds, the output
contains no brace token at any depth, and flattening the output —
restoring one `\x7b … \x7d` pair around each `Group`'s content — followed
by the rest cursor reproduces the input exactly: every `Group`
corresponds to one matched brace pair with the braces discarded. -/
theorem claim_C5 (input c r : List Token) (hg : groupFree input = true)
    (h : parseGroups input = .ok (c, r)) :
    braceFree c = true ∧ flattenList c ++ r = input :=
  parseGroups_flatten input c r hg h

/-- Witness for C5 on the sequence `\x7b a \x7d`. -/
theorem claim_C5_witness :
    groupFree [Token.openingBrace, Token.str "a", Token.closingBrace] = true ∧
      parseGroups [Token.openingBrace, Token.str "a", Token.closingBrace] =
        .ok ([Token.group [Token.str "a"]], []) ∧
      braceFree [Token.group [Token.str "a"]] = true ∧
      flattenList [Token.group [Token.str "a"]] ++ [] =
        [Token.openingBrace, Token.str "a", Token.closingBrace] := by
  have hpg : parseGroups [Token.openingBrace, Token.str "a", Token.closingBrace] =
      .ok ([Token.group [Token.str "a"]], []) := by
    simp [parseGroups, parseGroupsAux]
  have hc := claim_C5 [Token.openingBrace, Token.str "a", Token.closingBrace]
    [Token.group [Token.str "a"]] [] rfl hpg
  exact ⟨rfl, hpg, hc.1, hc.2⟩

/-- C6: the tokenizer never produces an empty string literal on any
input text: whitespace and comments are skipped before each word, so a
literal only starts at a non-delimiter character. -/
theorem claim_C6 (input : List Char) (s : String)
    (h : Token.str s ∈ parse input) : s ≠ "" :=
  parse_no_empty_literal input s h

/-- Witness for C6 on the one-character input `"a"`. -/
theorem claim_C6_witness :
    Token.str "a" ∈ parse ['a'] ∧ "a" ≠ "" := by
  have hp : parse ['a'] = [Token.str "a"] := by
    simp [parse_nil, parse_cons, skipWhitespace, parseWord, takeString]
  have hm : Token.str "a" ∈ parse ['a'] := by rw [hp]; exact List.mem_singleton.mpr rfl
  exact ⟨hm, claim_C6 ['a'] "a" hm⟩

/-- C7: a node sequence the block builder accepts is exactly the
rendering of the block it returns, in which every directive is followed
by a `Semicolon` precisely when its body is absent and by a `Group`
precisely when its body is present: "has a body" and "was terminated by
a semicolon" are mutually exclusive and exhaustive for every directive,
at every nesting depth. -/
theorem claim_C7 (ns : List Token) (b : Block) (h : parse_block ns = .ok b) :
    ns = flattenBlock b :=
  parse_block_flatten ns b h

/-- Witness for C7 on a two-directive sequence, one semicolon-terminated
and one with a (empty) body. -/
theorem claim_C7_witness :
    parse_block [Token.str "a", Token.semicolon, Token.str "b", Token.group []] =
        .ok [Directive.mk "a" [] none, Directive.mk "b" [] (some [])] ∧
      [Token.str "a", Token.semicolon, Token.str "b", Token.group []] =
        flattenBlock [Directive.mk "a" [] none, Directive.mk "b" [] (some [])] := by
  have hb : parse_block [Token.str "a", Token.semicolon, Token.str "b", Token.group []] =
      .ok [Directive.mk "a" [] none, Directive.mk "b" [] (some [])] := by
    simp [parse_block_nil, parse_block_cons, parseArgs]
  exact ⟨hb, claim_C7 _ _ hb⟩

/-- C8: the full pipeline on `"server \x7b listen 80; \x7d"` yields one
directive named `server` with no arguments whose body is one directive
named `listen` with argument `80` and no body. -/
theorem claim_C8 :
    parseConfig "server { listen 80; }" =
      .ok [Directive.mk "server" []
        (some [Directive.mk "listen" ["80"] none])] := by
  have hd : "server { listen 80; }".data =
      ['s', 'e', 'r', 'v', 'e', 'r', ' ', '{', ' ', 'l', 'i', 's', 't', 'e', 'n',
        ' ', '8', '0', ';', ' ', '}'] := rfl
  have hp : parse ['s', 'e', 'r', 'v', 'e', 'r', ' ', '{', ' ', 'l', 'i', 's',
      't', 'e', 'n', ' ', '8', '0', ';', ' ', '}'] =
      [Token.str "server", Token.openingBrace, Token.str "listen",
        Token.str "80", Token.semicolon, Token.closingBrace] := by
    simp [parse_nil, parse_cons, skipWhitespace, skipComment, parseWord, takeString]
  have hg : parseGroups [Token.str "server", Token.openingBrace, Token.str "listen",
      Token.str "80", Token.semicolon, Token.closingBrace] =
      .ok ([Token.str "server",
        Token.group [Token.str "listen", Token.str "80", Token.semicolon]], []) := by
    simp [parseGroups, parseGroupsAux]
  have hb : parse_block [Token.str "server",
      Token.group [Token.str "listen", Token.str "80", Token.semicolon]] =
      .ok [Directive.mk "server" [] (some [Directive.mk "listen" ["80"] none])] := by
    simp [parse_block_nil, parse_block_cons, parseArgs]
  rw [parseConfig, hd, hp, hg]
  exact hb

/-- C9: invoked directly (without the whitespace/comment skip `parse`
performs first) at a position whose character is a space, tab, newline
or `#`, `parseWord` returns an empty string literal and does not advance
the cursor — so tokenization's no-empty-literal guarantee rests on
`skipWhitespace` running first. -/
theorem claim_C9 (c : Char) (cs : List Char)
    (hc : c = ' ' ∨ c = '\t' ∨ c = '\n' ∨ c = '#') :
    parseWord (c :: cs) = (some (.str ""), c :: cs) :=
  parseWord_ws_empty c cs hc

/-- Witness for C9 at a single space (the source's own `main` exercises
exactly this call and prints the empty literal). -/
theorem claim_C9_witness :
    (' ' = ' ' ∨ ' ' = '\t' ∨ ' ' = '\n' ∨ ' ' = '#') ∧
      parseWord [' '] = (some (.str ""), [' ']) :=
  ⟨Or.inl rfl, claim_C9 ' ' [] (Or.inl rfl)⟩

/-- C10: whenever the grouper returns without error — at the top level
or in any recursive invocation, since the statement quantifies over all
inputs — the returned rest cursor is either at end-of-sequence or
points at a `ClosingBrace`; the loop never stops at any other token. -/
theorem claim_C10 (input c r : List Token)
    (h : parseGroups input = .ok (c, r)) :
    r = [] ∨ ∃ ts, r = .closingBrace :: ts :=
  parseGroups_rest input c r h

/-- Witness for C10 on a sequence whose grouping stops at a
`ClosingBrace` in mid-sequence. -/
theorem claim_C10_witness :
    parseGroups [Token.str "a", Token.closingBrace, Token.str "b"] =
        .ok ([Token.str "a"], [Token.closingBrace, Token.str "b"]) ∧
      ([Token.closingBrace, Token.str "b"] = ([] : List Token) ∨
        ∃ ts, [Token.closingBrace, Token.str "b"] = Token.closingBrace :: ts) := by
  have hpg : parseGroups [Token.str "a", Token.closingBrace, Token.str "b"] =
      .ok ([Token.str "a"], [Token.closingBrace, Token.str "b"]) := by
    simp [parseGroups, parseGroupsAux]
  exact ⟨hpg, claim_C10 _ _ _ hpg⟩

end NginxParser
